import Mathlib

/-!
Shallow embedding of the `concourse-github-pr-approval-resource` core:
the predicate evaluator, the `check`-phase scanner, and the `in`-phase
resolver (capture extraction, metadata assembly, working-copy
integration), together with theorems settling the specification claims.

External collaborators (the GitHub HTTP client, the git binary, the Go
`regexp` engine, stdin/stdout plumbing) are modelled by their
input/output contracts: query results are passed in as data, team
membership as a boolean oracle, compiled regular expressions by their
observable behaviour (submatch search plus subexpression names).
-/

namespace PRResource

/-! ## Go map model

`map[string]string` is modelled as an association list with
insert-overwrite semantics; Go's randomized iteration order never
matters for the properties proved here (they are stated via lookup and
membership, not list order). -/

/-- A Go `map[string]string`: keys are unique (maintained by `mapInsert`). -/
abbrev GoMap := List (String × String)

/-- `m[k] = v` in Go: replace the existing binding if present, else append. -/
def mapInsert (m : GoMap) (k v : String) : GoMap :=
  if m.any (fun p => p.1 = k) then
    m.map (fun p => if p.1 = k then (k, v) else p)
  else
    m ++ [(k, v)]

/-- Go map lookup `v, ok := m[k]`. -/
def mapFind (m : GoMap) (k : String) : Option String :=
  (m.find? (fun p => p.1 = k)).map (fun p => p.2)

/-! ## Compiled regular expressions

A compiled Go regexp is modelled by its observable behaviour:
`names` is `Regexp.SubexpNames()` (index 0 is always `""`; an unnamed
capture group also contributes `""`), and `find` is
`FindStringSubmatch` — `none` when the pattern does not match the body,
`some ms` with `ms.length = names.length` when it does (`ms[0]` is the
whole match, `ms[i]` the text of group `i`). -/

structure GoRegex where
  names : List String
  find : String → Option (List String)

/-- `regexp.Match(pattern, body)`: does the pattern match somewhere in the body? -/
def GoRegex.isMatch (re : GoRegex) (body : String) : Bool :=
  (re.find body).isSome

/-- A compiled regexp is well formed when every successful submatch search
returns one entry per subexpression name (Go guarantees this). -/
def GoRegex.WF (re : GoRegex) : Prop :=
  ∀ body ms, re.find body = some ms → ms.length = re.names.length

/-! ## Source configuration and the predicate evaluator

Mirrors the `Source` struct; transport-only fields (repository, access
token, endpoint, SSL flags) are omitted because no modelled operation
reads them.  Regex lists hold compiled patterns (see `GoRegex`). -/

structure Source where
  onlyMergeable : Bool := false
  states : List String := []
  labels : List String := []
  minApprovals : Int := 0
  approverComments : List GoRegex := []
  approverTeams : List String := []
  minReviews : Int := 0
  reviewerComments : List GoRegex := []
  reviewerTeams : List String := []
  reviewStates : List String := []
  ignoreStates : List String := []
  ignoreLabels : List String := []

/-- Team membership oracle: `client.UserMemberOfTeam(username, team)`.
The Go call site discards the error and uses the boolean. -/
abbrev Membership := String → String → Bool

/-- `Source.requestsState`: inclusion defaults to `{"open"}` when no states
are configured; any configured ignore state then forces rejection. -/
def Source.requestsState (source : Source) (state : String) : Bool :=
  let ret : Bool :=
    if source.states = [] then
      decide (state = "open")
    else
      source.states.any (fun s => s = state)
  if source.ignoreStates.any (fun s => s = state) then false else ret

/-- `Source.requestsReviewState`: case-insensitive membership of the review
state in the configured `review_states` list (empty list accepts nothing).
`strings.ToLower` is modelled by `String.toLower`; the configured states are
ASCII so the ASCII-only lowering is exact here. -/
def Source.requestsReviewState (source : Source) (state : String) : Bool :=
  let state := state.toLower
  source.reviewStates.any (fun s => state = s.toLower)

/-- `Source.requestsLabels`: empty inclusion list matches everything,
otherwise some PR label must equal a configured label; a configured ignore
label present on the PR always rejects. -/
def Source.requestsLabels (source : Source) (labels : List String) : Bool :=
  let ret :=
    if source.labels = [] then
      true
    else
      source.labels.any (fun rl => labels.any (fun rr => rl = rr))
  if source.ignoreLabels.any (fun rl => labels.any (fun rr => rl = rr)) then
    false
  else ret

/-- `Source.requestsReviewerRegex`: empty pattern list is a wildcard,
otherwise some configured pattern must match the comment body. -/
def Source.requestsReviewerRegex (source : Source) (comment : String) : Bool :=
  if source.reviewerComments.isEmpty then true
  else source.reviewerComments.any (fun c => c.isMatch comment)

/-- `Source.requestsReviewerTeam`: empty team list is a catch-all, otherwise
the author must belong to at least one configured team. -/
def Source.requestsReviewerTeam (source : Source) (memb : Membership)
    (username : String) : Bool :=
  if source.reviewerTeams = [] then true
  else source.reviewerTeams.any (fun t => memb username t)

/-- `Source.hasMinReviewers`: the configured minimum, floored at 1. -/
def Source.hasMinReviewers (source : Source) (numReviewers : Int) : Bool :=
  let min : Int := if source.minReviews > 1 then source.minReviews else 1
  numReviewers ≥ min

/-- `Source.requestsApproverRegex`: empty pattern list is a wildcard,
otherwise some configured pattern must match the comment body. -/
def Source.requestsApproverRegex (source : Source) (comment : String) : Bool :=
  if source.approverComments.isEmpty then true
  else source.approverComments.any (fun c => c.isMatch comment)

/-- `Source.requestsApproverTeam`: empty team list is a catch-all, otherwise
the author must belong to at least one configured team. -/
def Source.requestsApproverTeam (source : Source) (memb : Membership)
    (username : String) : Bool :=
  if source.approverTeams = [] then true
  else source.approverTeams.any (fun t => memb username t)

/-- `Source.hasMinApprovers`: the configured minimum, floored at 1. -/
def Source.hasMinApprovers (source : Source) (numApprovers : Int) : Bool :=
  let min : Int := if source.minApprovals > 1 then source.minApprovals else 1
  numApprovers ≥ min

/-- Modelled from the spec: `requestsApproveState` is invoked by the scanner
but its definition is not among the provided sources (only its call sites
are).  The spec resolves this: "this design treats approvals as
state-unfiltered (gated only by regex and team)", so the predicate accepts
every state. -/
def Source.requestsApproveState (_source : Source) (_state : String) : Bool :=
  true

/-! ## Persisted references

`Response` is the minimal persisted reference to a matched message; Go
zero values are the empty string. -/

structure Response where
  reviewID : String := ""
  commentID : String := ""
  createdAt : String := ""
deriving DecidableEq, Repr, Inhabited

/-! ## JSON codec for `[]*Response`

`json.Marshal` / `json.Unmarshal` on `[]*Response`, modelled at the
character-list level.  The encoder follows Go's `encoding/json` string
escaping (HTML escaping on, as in the default `Marshal`): `"`, `\`,
newline, carriage return and tab get two-character escapes; other
control characters and `<`, `>`, `&` become `\u00XX`; U+2028 and U+2029
become their own four-digit escapes; everything else is emitted literally.  A nil
slice (the Go value an empty accumulation leaves behind) marshals to
`null`.  The decoder is `Unmarshal` restricted to the shapes this
resource can exchange: arrays of objects whose values are strings, with
unknown keys ignored and later duplicate keys overwriting earlier ones. -/

/-- Hex digit used by Go's `\u00XX` escapes (lowercase alphabet). -/
def hexDigitChar (n : Nat) : Char :=
  if n < 10 then Char.ofNat ('0'.toNat + n) else Char.ofNat ('a'.toNat + n - 10)

/-- Value of one hex digit, upper- or lowercase. -/
def hexVal (c : Char) : Option Nat :=
  if '0' ≤ c ∧ c ≤ '9' then some (c.toNat - '0'.toNat)
  else if 'a' ≤ c ∧ c ≤ 'f' then some (c.toNat - 'a'.toNat + 10)
  else if 'A' ≤ c ∧ c ≤ 'F' then some (c.toNat - 'A'.toNat + 10)
  else none

/-- Value of a four-digit hex escape `\uXXXX`. -/
def hex4 (a b c d : Char) : Option Nat := do
  let ha ← hexVal a
  let hb ← hexVal b
  let hc ← hexVal c
  let hd ← hexVal d
  pure ((((ha * 16 + hb) * 16 + hc) * 16) + hd)

/-- Go `encoding/json` escaping of one character of a string literal. -/
def escapeChar (c : Char) : List Char :=
  if c = '"' then ['\\', '"']
  else if c = '\\' then ['\\', '\\']
  else if c = '\n' then ['\\', 'n']
  else if c = '\r' then ['\\', 'r']
  else if c = '\t' then ['\\', 't']
  else if c.toNat < 0x20 ∨ c = '<' ∨ c = '>' ∨ c = '&' then
    ['\\', 'u', '0', '0', hexDigitChar (c.toNat / 16), hexDigitChar (c.toNat % 16)]
  else if c.toNat = 0x2028 ∨ c.toNat = 0x2029 then
    ['\\', 'u', '2', '0', '2', hexDigitChar (c.toNat % 16)]
  else [c]

/-- A JSON string literal: quote, escaped characters, quote. -/
def encodeLit (s : String) : List Char :=
  '"' :: (s.data.flatMap escapeChar ++ ['"'])

/-- One-character escapes accepted by the decoder. -/
def unescapeChar (e : Char) : Option Char :=
  if e = '"' then some '"'
  else if e = '\\' then some '\\'
  else if e = '/' then some '/'
  else if e = 'b' then some (Char.ofNat 8)
  else if e = 'f' then some (Char.ofNat 12)
  else if e = 'n' then some '\n'
  else if e = 'r' then some '\r'
  else if e = 't' then some '\t'
  else none

/-- Decode one `\uXXXX` escape (input starts after the `u`): surrogate
pairs are combined, unpaired surrogates decode to U+FFFD — as in Go's
`unquoteChar`.  Returns the decoded character and the remaining input. -/
def decodeEscU : List Char → Option (Char × List Char)
  | a :: b :: c :: d :: rest =>
    match hex4 a b c d with
    | none => none
    | some n =>
      if 0xD800 ≤ n ∧ n ≤ 0xDBFF then
        match rest with
        | '\\' :: 'u' :: e2 :: f2 :: g2 :: h2 :: rest2 =>
          match hex4 e2 f2 g2 h2 with
          | some n2 =>
            if 0xDC00 ≤ n2 ∧ n2 ≤ 0xDFFF then
              some (Char.ofNat (0x10000 + (n - 0xD800) * 0x400 + (n2 - 0xDC00)), rest2)
            else some (Char.ofNat 0xFFFD, rest)
          | none => some (Char.ofNat 0xFFFD, rest)
        | _ => some (Char.ofNat 0xFFFD, rest)
      else if 0xDC00 ≤ n ∧ n ≤ 0xDFFF then some (Char.ofNat 0xFFFD, rest)
      else some (Char.ofNat n, rest)
  | _ => none

/-- `decodeEscU` consumes at least four characters. -/
theorem decodeEscU_length {l : List Char} {ch r}
    (h : decodeEscU l = some (ch, r)) : r.length < l.length := by
  unfold decodeEscU at h
  repeat' split at h
  all_goals
    first
    | exact Option.noConfusion h
    | (simp only [Option.some.injEq, Prod.mk.injEq] at h
       obtain ⟨-, rfl⟩ := h
       simp only [List.length_cons]
       omega)

/-- String-literal body scanner: `acc` holds the decoded characters in
reverse; stops at the closing quote.  Raw control characters and unknown
escapes are rejected. -/
def parseLitAux (acc : List Char) (l : List Char) :
    Option (String × List Char) :=
  match l with
  | [] => none
  | c :: rest =>
    if c = '"' then some (String.mk acc.reverse, rest)
    else if c = '\\' then
      match rest with
      | [] => none
      | e :: rest1 =>
        if e = 'u' then
          match hu : decodeEscU rest1 with
          | some (ch, rest2) => parseLitAux (ch :: acc) rest2
          | none => none
        else
          match unescapeChar e with
          | some ch => parseLitAux (ch :: acc) rest1
          | none => none
    else if c.toNat < 0x20 then none
    else parseLitAux (c :: acc) rest
termination_by l.length
decreasing_by
  · have := decodeEscU_length hu
    simp only [List.length_cons]; omega
  · simp only [List.length_cons]; omega
  · simp only [List.length_cons]; omega

/-- Parse a JSON string literal (opening quote included). -/
def parseLit : List Char → Option (String × List Char)
  | '"' :: rest => parseLitAux [] rest
  | _ => none

/-- `Unmarshal` assigning one decoded `"key": "value"` pair into a
`Response`; unknown keys are ignored, later keys overwrite earlier ones
(the struct fields carry the json tags `review_id`, `comment_id`,
`created_at`). -/
def applyField (r : Response) (k v : String) : Response :=
  if k = "review_id" then { r with reviewID := v }
  else if k = "comment_id" then { r with commentID := v }
  else if k = "created_at" then { r with createdAt := v }
  else r

theorem parseLitAux_nil (acc : List Char) : parseLitAux acc [] = none := by
  rw [parseLitAux.eq_def]

theorem parseLitAux_quote (acc rest) :
    parseLitAux acc ('"' :: rest) = some (String.mk acc.reverse, rest) := by
  rw [parseLitAux.eq_def]
  simp

theorem parseLitAux_lit {c : Char} (acc rest) (h1 : c ≠ '"') (h2 : c ≠ '\\')
    (h3 : ¬ c.toNat < 0x20) :
    parseLitAux acc (c :: rest) = parseLitAux (c :: acc) rest := by
  rw [parseLitAux.eq_def]
  simp [h1, h2, h3]

theorem parseLitAux_esc {e : Char} {ch : Char} (acc rest1) (h1 : e ≠ 'u')
    (h2 : unescapeChar e = some ch) :
    parseLitAux acc ('\\' :: e :: rest1) = parseLitAux (ch :: acc) rest1 := by
  rw [parseLitAux.eq_def]
  simp [h1, h2]

theorem parseLitAux_escU {rest1 ch rest2} (acc)
    (hu : decodeEscU rest1 = some (ch, rest2)) :
    parseLitAux acc ('\\' :: 'u' :: rest1) = parseLitAux (ch :: acc) rest2 := by
  rw [parseLitAux.eq_def]
  simp only [eq_false (by decide : ¬(('\\' : Char) = '"')),
    eq_true (by decide : ('\\' : Char) = '\\'),
    eq_true (by decide : ('u' : Char) = 'u'), ite_true, ite_false]
  split
  · rename_i ch' rest2' heq
    rw [hu] at heq
    simp only [Option.some.injEq, Prod.mk.injEq] at heq
    rw [heq.1, heq.2]
  · rename_i heq
    rw [hu] at heq
    exact Option.noConfusion heq

theorem parseLitAux_escU_none {rest1} (acc)
    (hu : decodeEscU rest1 = none) :
    parseLitAux acc ('\\' :: 'u' :: rest1) = none := by
  rw [parseLitAux.eq_def]
  simp only [eq_false (by decide : ¬(('\\' : Char) = '"')),
    eq_true (by decide : ('\\' : Char) = '\\'),
    eq_true (by decide : ('u' : Char) = 'u'), ite_true, ite_false]
  split
  · rename_i ch' rest2' heq
    rw [hu] at heq
    exact Option.noConfusion heq
  · rfl

theorem parseLitAux_backslash_nil (acc : List Char) :
    parseLitAux acc ['\\'] = none := by
  rw [parseLitAux.eq_def]
  simp

theorem parseLitAux_esc_none {e : Char} (acc rest1) (h1 : e ≠ 'u')
    (h2 : unescapeChar e = none) :
    parseLitAux acc ('\\' :: e :: rest1) = none := by
  rw [parseLitAux.eq_def]
  simp [h1, h2]

theorem parseLitAux_ctrl {c : Char} (acc rest) (h1 : c ≠ '"') (h2 : c ≠ '\\')
    (h3 : c.toNat < 0x20) :
    parseLitAux acc (c :: rest) = none := by
  rw [parseLitAux.eq_def]
  simp [h1, h2, h3]

/-- `parseLitAux` consumes at least the closing quote, so the remainder is
strictly shorter than the input. -/
theorem parseLitAux_length {acc l} :
    ∀ {s r}, parseLitAux acc l = some (s, r) → r.length < l.length := by
  induction acc, l using parseLitAux.induct with
  | case1 acc =>
    intro s r h
    rw [parseLitAux_nil] at h
    exact Option.noConfusion h
  | case2 acc rest1 =>
    intro s r h
    rw [parseLitAux_quote] at h
    simp only [Option.some.injEq, Prod.mk.injEq] at h
    rw [← h.2]
    simp
  | case3 acc _ =>
    intro s r h
    rw [parseLitAux_backslash_nil] at h
    exact Option.noConfusion h
  | case4 acc rest1 ch rest2 hu _ ih =>
    intro s r h
    rw [parseLitAux_escU acc hu] at h
    have h1 := ih h
    have h2 := decodeEscU_length hu
    simp only [List.length_cons]
    omega
  | case5 acc rest1 hu _ =>
    intro s r h
    rw [parseLitAux_escU_none acc hu] at h
    exact Option.noConfusion h
  | case6 acc e rest1 hne ch huc _ ih =>
    intro s r h
    rw [parseLitAux_esc acc rest1 hne huc] at h
    have h1 := ih h
    simp only [List.length_cons]
    omega
  | case7 acc e rest1 hne huc _ =>
    intro s r h
    rw [parseLitAux_esc_none acc rest1 hne huc] at h
    exact Option.noConfusion h
  | case8 acc e rest1 h1 h2 h3 =>
    intro s r h
    rw [parseLitAux_ctrl acc rest1 h1 h2 h3] at h
    exact Option.noConfusion h
  | case9 acc e rest1 h1 h2 h3 ih =>
    intro s r h
    rw [parseLitAux_lit acc rest1 h1 h2 (by exact h3)] at h
    have h4 := ih h
    simp only [List.length_cons]
    omega

/-- `parseLit` strictly shrinks the input. -/
theorem parseLit_length {l : List Char} {s r}
    (h : parseLit l = some (s, r)) : r.length < l.length := by
  match l with
  | [] => exact Option.noConfusion h
  | c :: rest =>
    by_cases hc : c = '"'
    · subst hc
      have := @parseLitAux_length [] rest _ _ h
      simp only [List.length_cons]
      omega
    · rw [show parseLit (c :: rest) = none by
        rw [parseLit.eq_def]
        split
        · rename_i heq
          injection heq with heq1
          exact absurd heq1 hc
        · rfl] at h
      exact Option.noConfusion h

/-- One `"key": "value"` field of a JSON object, together with its
terminator: `true` when a comma follows (more fields), `false` at the
closing brace. -/
def parseField1 (l : List Char) : Option ((String × String) × (List Char × Bool)) :=
  match parseLit l with
  | some (k, ':' :: rest2) =>
    match parseLit rest2 with
    | some (v, ',' :: rest4) => some ((k, v), (rest4, true))
    | some (v, '}' :: rest4) => some ((k, v), (rest4, false))
    | _ => none
  | _ => none

/-- `parseField1` consumes the key, the colon, the value and the
terminator, so the remainder is strictly shorter. -/
theorem parseField1_length {l kv rest b}
    (h : parseField1 l = some (kv, (rest, b))) : rest.length < l.length := by
  unfold parseField1 at h
  split at h
  · rename_i k rest2 hk
    split at h
    · rename_i v rest4 hv
      simp only [Option.some.injEq, Prod.mk.injEq] at h
      obtain ⟨-, rfl, -⟩ := h
      have a1 := parseLit_length hk
      have a2 := parseLit_length hv
      simp only [List.length_cons] at a1 a2
      omega
    · rename_i v rest4 hv
      simp only [Option.some.injEq, Prod.mk.injEq] at h
      obtain ⟨-, rfl, -⟩ := h
      have a1 := parseLit_length hk
      have a2 := parseLit_length hv
      simp only [List.length_cons] at a1 a2
      omega
    · exact Option.noConfusion h
  · exact Option.noConfusion h

/-- `Unmarshal` of one JSON object into a `Response`: a loop over
`"key": "value"` fields (the values exchanged by this resource are always
strings); unknown keys are ignored, later duplicates overwrite. -/
def parseFields (r : Response) (l : List Char) : Option (Response × List Char) :=
  match h : parseField1 l with
  | some ((k, v), (rest, true)) => parseFields (applyField r k v) rest
  | some ((k, v), (rest, false)) => some (applyField r k v, rest)
  | none => none
termination_by l.length
decreasing_by
  have := parseField1_length h
  omega

theorem parseFields_cont {l : List Char} {k v rest} (r : Response)
    (h : parseField1 l = some ((k, v), (rest, true))) :
    parseFields r l = parseFields (applyField r k v) rest := by
  rw [parseFields.eq_def]
  split
  · rename_i k' v' rest' heq
    have h2 := h.symm.trans heq
    simp only [Option.some.injEq, Prod.mk.injEq] at h2
    obtain ⟨⟨rfl, rfl⟩, rfl, -⟩ := h2
    rfl
  · rename_i k' v' rest' heq
    have h2 := h.symm.trans heq
    simp at h2
  · rename_i heq
    exact Option.noConfusion (h.symm.trans heq)

theorem parseFields_last {l : List Char} {k v rest} (r : Response)
    (h : parseField1 l = some ((k, v), (rest, false))) :
    parseFields r l = some (applyField r k v, rest) := by
  rw [parseFields.eq_def]
  split
  · rename_i k' v' rest' heq
    have h2 := h.symm.trans heq
    simp at h2
  · rename_i k' v' rest' heq
    have h2 := h.symm.trans heq
    simp only [Option.some.injEq, Prod.mk.injEq] at h2
    obtain ⟨⟨rfl, rfl⟩, rfl, -⟩ := h2
    rfl
  · rename_i heq
    exact Option.noConfusion (h.symm.trans heq)

theorem parseFields_none {l : List Char} (r : Response)
    (h : parseField1 l = none) : parseFields r l = none := by
  rw [parseFields.eq_def]
  split
  · rename_i heq
    exact Option.noConfusion (h.symm.trans heq)
  · rename_i heq
    exact Option.noConfusion (h.symm.trans heq)
  · rfl

/-- `parseFields` consumes at least the closing brace. -/
theorem parseFields_length {r l} :
    ∀ {r2 rest}, parseFields r l = some (r2, rest) → rest.length < l.length := by
  induction r, l using parseFields.induct with
  | case1 r l k v rest h ih =>
    intro r2 rest2 hp
    rw [parseFields_cont r h] at hp
    have a1 := ih hp
    have a2 := parseField1_length h
    omega
  | case2 r l k v rest h =>
    intro r2 rest2 hp
    rw [parseFields_last r h] at hp
    simp only [Option.some.injEq, Prod.mk.injEq] at hp
    obtain ⟨-, rfl⟩ := hp
    exact parseField1_length h
  | case3 r l h =>
    intro r2 rest2 hp
    rw [parseFields_none r h] at hp
    exact Option.noConfusion hp

/-- `Unmarshal` of one array element: a JSON object. -/
def parseResp : List Char → Option (Response × List Char)
  | '{' :: '}' :: rest => some ({}, rest)
  | '{' :: rest => parseFields {} rest
  | _ => none

/-- `parseResp` consumes at least the object braces. -/
theorem parseResp_length {l : List Char} {r rest}
    (h : parseResp l = some (r, rest)) : rest.length < l.length := by
  rw [parseResp.eq_def] at h
  split at h
  · simp only [Option.some.injEq, Prod.mk.injEq] at h
    obtain ⟨-, rfl⟩ := h
    simp only [List.length_cons]
    omega
  · have := parseFields_length h
    simp only [List.length_cons]
    omega
  · exact Option.noConfusion h

/-- One array element plus its terminator: `true` when a comma follows,
`false` at the closing bracket, which must end the input (`Unmarshal`
rejects trailing data after the top-level value). -/
def parseElem1 (l : List Char) : Option (Response × (List Char × Bool)) :=
  match parseResp l with
  | some (r, ',' :: rest2) => some (r, (rest2, true))
  | some (r, [']']) => some (r, ([], false))
  | _ => none

theorem parseElem1_length {l r rest b}
    (h : parseElem1 l = some (r, (rest, b))) : rest.length < l.length := by
  unfold parseElem1 at h
  split at h
  · rename_i r' rest2 hp
    simp only [Option.some.injEq, Prod.mk.injEq] at h
    obtain ⟨-, rfl, -⟩ := h
    have := parseResp_length hp
    simp only [List.length_cons] at this
    omega
  · rename_i r' hp
    simp only [Option.some.injEq, Prod.mk.injEq] at h
    obtain ⟨-, rfl, -⟩ := h
    have := parseResp_length hp
    simp only [List.length_cons] at this
    simp only [List.length_nil]
    omega
  · exact Option.noConfusion h

/-- `Unmarshal` of the elements of a non-empty JSON array into a slice
of `Response`. -/
def parseElems (acc : List Response) (l : List Char) : Option (List Response) :=
  match h : parseElem1 l with
  | some (r, (rest, true)) => parseElems (acc ++ [r]) rest
  | some (r, (_, false)) => some (acc ++ [r])
  | none => none
termination_by l.length
decreasing_by
  have := parseElem1_length h
  omega

theorem parseElems_more {l : List Char} {r rest} (acc : List Response)
    (h : parseElem1 l = some (r, (rest, true))) :
    parseElems acc l = parseElems (acc ++ [r]) rest := by
  rw [parseElems.eq_def]
  split
  · rename_i r' rest' heq
    have h2 := h.symm.trans heq
    simp only [Option.some.injEq, Prod.mk.injEq] at h2
    obtain ⟨rfl, rfl, -⟩ := h2
    rfl
  · rename_i r' rest' heq
    have h2 := h.symm.trans heq
    simp at h2
  · rename_i heq
    exact Option.noConfusion (h.symm.trans heq)

theorem parseElems_fin {l : List Char} {r x} (acc : List Response)
    (h : parseElem1 l = some (r, (x, false))) :
    parseElems acc l = some (acc ++ [r]) := by
  rw [parseElems.eq_def]
  split
  · rename_i r' rest' heq
    have h2 := h.symm.trans heq
    simp at h2
  · rename_i r' rest' heq
    have h2 := h.symm.trans heq
    simp only [Option.some.injEq, Prod.mk.injEq] at h2
    obtain ⟨rfl, -, -⟩ := h2
    rfl
  · rename_i heq
    exact Option.noConfusion (h.symm.trans heq)

/-- `json.Unmarshal` of a version's encoded list into `[]*Response`:
`null` leaves the destination slice nil (the empty list); otherwise the
input must be a complete JSON array. -/
def unmarshalResponses (l : List Char) : Option (List Response) :=
  if l = "null".data then some []
  else
    match l with
    | '[' :: ']' :: [] => some []
    | '[' :: rest => parseElems [] rest
    | _ => none

/-! ### Encoder -/

/-- A JSON string literal is never empty (it starts with a quote). -/
theorem encodeLit_ne_nil (s : String) : encodeLit s ≠ [] := by
  simp [encodeLit]

/-- Comma-separated concatenation, as `encoding/json` writes array
elements. -/
def joinComma : List (List Char) → List Char
  | [] => []
  | [x] => x
  | x :: xs => x ++ ',' :: joinComma xs

/-- `json.Marshal` of one `*Response`: object fields in struct
declaration order — `review_id`, `comment_id`, `created_at`. -/
def encodeResponse (r : Response) : List Char :=
  '{' :: (encodeLit "review_id" ++ ':' :: (encodeLit r.reviewID
    ++ ',' :: (encodeLit "comment_id" ++ ':' :: (encodeLit r.commentID
    ++ ',' :: (encodeLit "created_at" ++ ':' :: (encodeLit r.createdAt
    ++ ['}']))))))

/-- `json.Marshal` of `[]*Response`: the scanner's accumulated slice is
nil exactly when no response was appended, and a nil slice marshals to
`null`; a non-empty slice marshals to a JSON array. -/
def marshalResponses : List Response → List Char
  | [] => "null".data
  | rs => '[' :: (joinComma (rs.map encodeResponse) ++ [']'])

/-! ### Decode inverts encode -/

theorem hexVal_hexDigitChar (n : Nat) (h : n < 16) :
    hexVal (hexDigitChar n) = some n := by
  interval_cases n <;> decide

theorem hex4_00 {n : Nat} (h : n < 0x100) :
    hex4 '0' '0' (hexDigitChar (n / 16)) (hexDigitChar (n % 16)) = some n := by
  have h1 : hexVal (hexDigitChar (n / 16)) = some (n / 16) :=
    hexVal_hexDigitChar _ (by omega)
  have h2 : hexVal (hexDigitChar (n % 16)) = some (n % 16) :=
    hexVal_hexDigitChar _ (by omega)
  unfold hex4
  rw [show hexVal '0' = some 0 from rfl, h1, h2]
  simp only [Option.bind_eq_bind, Option.some_bind, Option.pure_def,
    Option.some.injEq]
  omega

theorem decodeEscU_bmp {a b c d : Char} {n : Nat} (tail : List Char)
    (hh : hex4 a b c d = some n) (hn : n < 0xD800) :
    decodeEscU (a :: b :: c :: d :: tail) = some (Char.ofNat n, tail) := by
  simp only [decodeEscU, hh]
  rw [if_neg (by omega), if_neg (by omega)]

/-- Scanning one escaped character undoes the escaping. -/
theorem parseLitAux_escapeChar (c : Char) (acc tail : List Char) :
    parseLitAux acc (escapeChar c ++ tail) = parseLitAux (c :: acc) tail := by
  unfold escapeChar
  by_cases h1 : c = '"'
  · subst h1
    rw [if_pos rfl]
    exact parseLitAux_esc acc tail (by decide) (by decide)
  · rw [if_neg h1]
    by_cases h2 : c = '\\'
    · subst h2
      rw [if_pos rfl]
      exact parseLitAux_esc acc tail (by decide) (by decide)
    · rw [if_neg h2]
      by_cases h3 : c = '\n'
      · subst h3
        rw [if_pos rfl]
        exact parseLitAux_esc acc tail (by decide) (by decide)
      · rw [if_neg h3]
        by_cases h4 : c = '\r'
        · subst h4
          rw [if_pos rfl]
          exact parseLitAux_esc acc tail (by decide) (by decide)
        · rw [if_neg h4]
          by_cases h5 : c = '\t'
          · subst h5
            rw [if_pos rfl]
            exact parseLitAux_esc acc tail (by decide) (by decide)
          · rw [if_neg h5]
            by_cases h6 : c.toNat < 0x20 ∨ c = '<' ∨ c = '>' ∨ c = '&'
            · rw [if_pos h6]
              have hn : c.toNat < 0x100 := by
                rcases h6 with h | h | h | h
                · omega
                · subst h; decide
                · subst h; decide
                · subst h; decide
              have hd := decodeEscU_bmp tail (hex4_00 hn) (by omega)
              have hstep := parseLitAux_escU acc hd
              rw [Char.ofNat_toNat] at hstep
              exact hstep
            · rw [if_neg h6]
              by_cases h7 : c.toNat = 0x2028 ∨ c.toNat = 0x2029
              · rw [if_pos h7]
                have hd : decodeEscU
                    ('2' :: '0' :: '2' :: hexDigitChar (c.toNat % 16) :: tail)
                    = some (Char.ofNat c.toNat, tail) := by
                  rcases h7 with h | h <;> rw [h] <;>
                    exact decodeEscU_bmp tail (by decide) (by decide)
                have hstep := parseLitAux_escU acc hd
                rw [Char.ofNat_toNat] at hstep
                exact hstep
              · rw [if_neg h7]
                push_neg at h6
                exact parseLitAux_lit acc tail h1 h2 (by omega)

/-- Scanning an escaped string body up to the closing quote returns the
original string. -/
theorem parseLitAux_escape (s : List Char) :
    ∀ acc rest, parseLitAux acc (s.flatMap escapeChar ++ '"' :: rest)
      = some (String.mk (acc.reverse ++ s), rest) := by
  induction s with
  | nil =>
    intro acc rest
    rw [List.flatMap_nil, List.nil_append, parseLitAux_quote, List.append_nil]
  | cons c s ih =>
    intro acc rest
    rw [List.flatMap_cons, List.append_assoc, parseLitAux_escapeChar, ih]
    simp

/-- Round trip for one JSON string literal. -/
theorem parseLit_encodeLit (s : String) (rest : List Char) :
    parseLit (encodeLit s ++ rest) = some (s, rest) := by
  unfold encodeLit
  rw [List.cons_append, List.append_assoc,
    show parseLit ('"' :: (s.data.flatMap escapeChar ++ (['"'] ++ rest)))
      = parseLitAux [] (s.data.flatMap escapeChar ++ (['"'] ++ rest)) from rfl,
    List.singleton_append, parseLitAux_escape]
  simp

theorem parseField1_encoded_cont (k v : String) (rest : List Char) :
    parseField1 (encodeLit k ++ ':' :: (encodeLit v ++ ',' :: rest))
      = some ((k, v), (rest, true)) := by
  unfold parseField1
  rw [parseLit_encodeLit]
  simp only
  rw [parseLit_encodeLit]
  rfl

theorem parseField1_encoded_last (k v : String) (rest : List Char) :
    parseField1 (encodeLit k ++ ':' :: (encodeLit v ++ '}' :: rest))
      = some ((k, v), (rest, false)) := by
  unfold parseField1
  rw [parseLit_encodeLit]
  simp only
  rw [parseLit_encodeLit]
  rfl

/-- Round trip for a full `Response` object body. -/
theorem parseFields_encoded (r0 : Response) (rid cid ts : String)
    (rest : List Char) :
    parseFields r0 (encodeLit "review_id" ++ ':' :: (encodeLit rid
        ++ ',' :: (encodeLit "comment_id" ++ ':' :: (encodeLit cid
        ++ ',' :: (encodeLit "created_at" ++ ':' :: (encodeLit ts
        ++ '}' :: rest))))))
      = some ({ reviewID := rid, commentID := cid, createdAt := ts }, rest) := by
  rw [parseFields_cont r0 (parseField1_encoded_cont _ _ _),
    parseFields_cont _ (parseField1_encoded_cont _ _ _),
    parseFields_last _ (parseField1_encoded_last _ _ _)]
  obtain ⟨a, b, c⟩ := r0
  simp [applyField]

theorem parseResp_cons {rest : List Char} (h : rest.head? ≠ some '}') :
    parseResp ('{' :: rest) = parseFields {} rest := by
  rw [parseResp.eq_def]
  split
  · rename_i rest' heq1 heq2
    injection heq2 with k1 k2
    rw [k2] at h
    simp at h
  · rename_i rest' heq
    injection heq with h1 h2
    rw [h2]
  · rename_i hne1 hne2
    exact (hne2 rest rfl).elim

/-- Round trip for one array element. -/
theorem parseResp_encoded (r : Response) (rest : List Char) :
    parseResp (encodeResponse r ++ rest) = some (r, rest) := by
  obtain ⟨rid, cid, ts⟩ := r
  simp only [encodeResponse, List.cons_append, List.append_assoc,
    List.singleton_append]
  rw [parseResp_cons (by simp [encodeLit])]
  exact parseFields_encoded _ _ _ _ _

theorem parseElem1_more (r : Response) (t : List Char) :
    parseElem1 (encodeResponse r ++ ',' :: t) = some (r, (t, true)) := by
  unfold parseElem1
  rw [parseResp_encoded]
  rfl

theorem parseElem1_fin (r : Response) :
    parseElem1 (encodeResponse r ++ [']']) = some (r, ([], false)) := by
  unfold parseElem1
  rw [parseResp_encoded]
  rfl

/-- Round trip for the elements of a non-empty array. -/
theorem parseElems_encoded (rs : List Response) :
    ∀ acc, rs ≠ [] →
      parseElems acc (joinComma (rs.map encodeResponse) ++ [']'])
        = some (acc ++ rs) := by
  induction rs with
  | nil => intro acc h; exact absurd rfl h
  | cons r rest ih =>
    intro acc _
    cases rest with
    | nil =>
      rw [show joinComma ([r].map encodeResponse) = encodeResponse r from rfl,
        parseElems_fin acc (parseElem1_fin r)]
    | cons r2 rest2 =>
      rw [show joinComma ((r :: r2 :: rest2).map encodeResponse)
          = encodeResponse r ++ ',' :: joinComma ((r2 :: rest2).map encodeResponse)
        from rfl]
      rw [List.append_assoc, List.cons_append,
        parseElems_more acc (parseElem1_more r _),
        ih (acc ++ [r]) (by simp)]
      simp

theorem joinComma_shape (r : Response) (rest : List Response) :
    ∃ z, joinComma ((r :: rest).map encodeResponse) = '{' :: z := by
  cases rest <;> exact ⟨_, rfl⟩

theorem unmarshalResponses_arr {t : List Char} (h : t.head? ≠ some ']')
    (hne : ('[' :: t) ≠ "null".data) :
    unmarshalResponses ('[' :: t) = parseElems [] t := by
  unfold unmarshalResponses
  rw [if_neg hne]
  split
  · rename_i heq1 heq2
    injection heq2 with k1 k2
    rw [k2] at h
    simp at h
  · rename_i rest' heq
    injection heq with h1 h2
    rw [h2]
  · rename_i hne1 hne2
    exact (hne2 t rfl).elim

/-- Decoding an encoded `Response` list is the identity. -/
theorem unmarshal_marshal (rs : List Response) :
    unmarshalResponses (marshalResponses rs) = some rs := by
  cases rs with
  | nil => decide
  | cons r rest =>
    rw [show marshalResponses (r :: rest)
        = '[' :: (joinComma ((r :: rest).map encodeResponse) ++ [']'])
      from rfl]
    obtain ⟨z, hz⟩ := joinComma_shape r rest
    rw [hz, unmarshalResponses_arr (by simp) (by simp [show "null".data
        = ['n', 'u', 'l', 'l'] from rfl]), ← hz,
      parseElems_encoded (r :: rest) [] (by simp)]
    simp

/-! ## The version scanner (`check` phase)

`Check` walks the pull requests returned by the Hosting Client; the
client's query results (pull requests with their comments and reviews)
are inputs, team membership is the `Membership` oracle.  Any client error
aborts the scan in Go; the model takes the successfully fetched data
directly.  The pre-warming of reviewer-team member lists is a pure
cache-warming call whose result is discarded, so it has no observable
effect here. -/

/-- An issue comment as the scanner reads it: id, body, author login and
`CreatedAt.Unix()`. -/
structure Comment where
  id : Int
  body : String
  userLogin : String
  createdAt : Int
deriving DecidableEq, Repr

/-- A pull-request review as the scanner reads it: id, body, state,
author login and `SubmittedAt.Unix()`. -/
structure Review where
  id : Int
  body : String
  state : String
  userLogin : String
  submittedAt : Int
deriving DecidableEq, Repr

/-- The pull-request attributes the scanner's gates read. -/
structure Pull where
  number : Int
  state : String
  labels : List String
  mergeable : Bool
  draft : Bool
deriving DecidableEq, Repr

/-- The `Version` struct: `ApprovedBy`/`ReviewedBy` are the embedded
JSON encodings (Go strings, here character lists); `approvedBy` /
`reviewedBy` / `lastUpdated` are the unexported in-memory fields. -/
structure Version where
  PrID : String := ""
  ApprovedBy : List Char := []
  approvedBy : List Response := []
  ReviewedBy : List Char := []
  reviewedBy : List Response := []
  lastUpdated : Int := 0
deriving DecidableEq, Repr, Inhabited

/-- The reviewer-classification half of the comment loop body. -/
def commentReviewerStep (src : Source) (memb : Membership) (v : Version)
    (c : Comment) : Version :=
  if src.requestsReviewerRegex c.body then
    if src.requestsReviewerTeam memb c.userLogin then
      let v := if c.createdAt > v.lastUpdated
        then { v with lastUpdated := c.createdAt } else v
      { v with reviewedBy := v.reviewedBy
          ++ [{ createdAt := toString c.createdAt, commentID := toString c.id }] }
    else v
  else v

/-- One iteration of the scanner's comment loop.  The approver branch's
failed state check executes `continue`, which also skips the reviewer
classification for that comment. -/
def processComment (src : Source) (memb : Membership) (v : Version)
    (c : Comment) : Version :=
  if src.requestsApproverRegex c.body then
    if src.requestsApproverTeam memb c.userLogin then
      if ¬ src.requestsApproveState "comment" then v
      else
        let v := if c.createdAt > v.lastUpdated
          then { v with lastUpdated := c.createdAt } else v
        let v := { v with approvedBy := v.approvedBy
          ++ [{ createdAt := toString c.createdAt, commentID := toString c.id }] }
        commentReviewerStep src memb v c
    else commentReviewerStep src memb v c
  else commentReviewerStep src memb v c

/-- The reviewer-classification half of the review loop body; it is
gated on `requestsReviewState` (a failed check `continue`s, but this
branch is the iteration's last). -/
def reviewReviewerStep (src : Source) (memb : Membership) (v : Version)
    (r : Review) : Version :=
  if src.requestsReviewerRegex r.body then
    if src.requestsReviewerTeam memb r.userLogin then
      if ¬ src.requestsReviewState r.state then v
      else
        let v := if r.submittedAt > v.lastUpdated
          then { v with lastUpdated := r.submittedAt } else v
        { v with reviewedBy := v.reviewedBy
            ++ [{ createdAt := toString r.submittedAt, reviewID := toString r.id }] }
    else v
  else v

/-- One iteration of the scanner's review loop.  The approver branch's
failed state check executes `continue`, which also skips the reviewer
classification for that review. -/
def processReview (src : Source) (memb : Membership) (v : Version)
    (r : Review) : Version :=
  if src.requestsApproverRegex r.body then
    if src.requestsApproverTeam memb r.userLogin then
      if ¬ src.requestsApproveState r.state then v
      else
        let v := if r.submittedAt > v.lastUpdated
          then { v with lastUpdated := r.submittedAt } else v
        let v := { v with approvedBy := v.approvedBy
          ++ [{ createdAt := toString r.submittedAt, reviewID := toString r.id }] }
        reviewReviewerStep src memb v r
    else reviewReviewerStep src memb v r
  else reviewReviewerStep src memb v r

/-- The scanner's per-pull-request body: the four early-discard gates,
the comment and review loops, the minimum checks, and the JSON encoding
of the accumulated response lists. -/
def scanPR (src : Source) (memb : Membership) (pull : Pull)
    (comments : List Comment) (reviews : List Review) : Option Version :=
  let version : Version := { PrID := toString pull.number }
  if ¬ src.requestsState pull.state then none
  else if ¬ src.requestsLabels pull.labels then none
  else if src.onlyMergeable ∧ ¬ pull.mergeable then none
  else if pull.draft then none
  else
    let v1 := comments.foldl (fun v c => processComment src memb v c) version
    let v2 := reviews.foldl (fun v r => processReview src memb v r) v1
    if src.hasMinApprovers (v2.approvedBy.length : Int)
        ∧ src.hasMinReviewers (v2.reviewedBy.length : Int) then
      some { v2 with ApprovedBy := marshalResponses v2.approvedBy,
                     ReviewedBy := marshalResponses v2.reviewedBy }
    else none

/-- `sort.Slice(versions, less = lastUpdated i < lastUpdated j)`,
modelled by insertion sort on the non-strict order.  Go's slice sort is
unstable, so only the resulting order with respect to `lastUpdated` is
meaningful. -/
def sortVersions (vs : List Version) : List Version :=
  List.insertionSort (fun a b => a.lastUpdated ≤ b.lastUpdated) vs

/-- One pull request together with its fetched discussion history. -/
structure PullData where
  pull : Pull
  comments : List Comment
  reviews : List Review

/-- The whole `check` phase over the listed pull requests. -/
def Check (src : Source) (memb : Membership) (pulls : List PullData) :
    List Version :=
  sortVersions (pulls.filterMap
    (fun pd => scanPR src memb pd.pull pd.comments pd.reviews))

/-! ## The version resolver (`in` phase) -/

/-- `getParams`: run one compiled pattern against a body and collect the
submatches into a map keyed by subexpression name.  `SubexpNames()[i]` is
`""` for an unnamed group, so unnamed groups land under the empty-string
key.  The Go loop guard is `i > 0 && i <= len(match)`; when the pattern
does not match, `match` is nil and the guard never holds.  (When it
matches, Go guarantees `len(match) = len(SubexpNames())`, so the `getD`
defaults are never read.) -/
def getParams (re : GoRegex) (body : String) : GoMap :=
  let ms := match re.find body with
    | some l => l
    | none => []
  re.names.enum.foldl
    (fun pm p =>
      if 0 < p.1 ∧ p.1 ≤ ms.length then mapInsert pm p.2 (ms.getD p.1 "")
      else pm)
    []

/-- The capture-merging loop shared by `parseReview` and `parseComment`:
`message.Matches[k] = v` for every pattern in configuration order, so a
later pattern's capture overwrites an earlier one's under the same
name. -/
def computeMatches (regex : List GoRegex) (body : String) : GoMap :=
  regex.foldl
    (fun acc r => (getParams r body).foldl (fun m p => mapInsert m p.1 p.2) acc)
    []

/-- Go `Metadata`: an ordered list of name/value pairs; `Add` appends and
names need not be unique. -/
abbrev Metadata := List (String × String)

/-- The fixed part of the `in` metadata record (`InMetadata`). -/
structure InMetadata where
  prID : Int
  prHeadRef : String
  prHeadSHA : String
  prBaseRef : String
  prBaseSHA : String
  totalApprovals : Int
  totalReviews : Int
deriving DecidableEq, Repr

/-- `serializeStruct` on `InMetadata`: one pair per struct field, in
declaration order, named by the json tag, value via `fmt.Sprintf("%v")`. -/
def serializeInMetadata (m : InMetadata) : Metadata :=
  [("pr_id", toString m.prID),
   ("pr_head_ref", m.prHeadRef),
   ("pr_head_sha", m.prHeadSHA),
   ("pr_base_ref", m.prBaseRef),
   ("pr_base_sha", m.prBaseSHA),
   ("total_approvals", toString m.totalApprovals),
   ("total_reviews", toString m.totalReviews)]

/-- The capture part of the `in` metadata: for the message at 0-based
index `i` of its list, each capture `(k, v)` contributes a field named
`k_<i+1>` (1-based position suffix). -/
def captureFields (msgs : List GoMap) : Metadata :=
  msgs.enum.foldl
    (fun md p =>
      p.2.foldl (fun md2 kv => md2 ++ [(kv.1 ++ "_" ++ toString (p.1 + 1), kv.2)]) md)
    []

/-- The consolidated metadata record `In` builds: fixed fields, then the
capture fields of the approval messages, then those of the review
messages. -/
def inMetadata (meta : InMetadata) (approvedMatches reviewedMatches : List GoMap) :
    Metadata :=
  serializeInMetadata meta ++ captureFields approvedMatches
    ++ captureFields reviewedMatches

/-- One call into the Working-Copy Client, in the order `In` makes them. -/
inductive GitOp where
  | init (baseRef : String)
  | pull (url ref : String) (depth : Int) (submodules fetchTags : Bool)
  | fetch (url : String) (prNumber : Int) (depth : Int) (submodules : Bool)
  | rebase (baseRef headSha : String) (submodules : Bool)
  | merge (headSha : String) (submodules : Bool)
  | checkout (headRef headSha : String) (submodules : Bool)
deriving DecidableEq, Repr

/-- `in` request parameters (Go zero values as JSON defaults). -/
structure InParams where
  sourcePath : String := ""
  gitDepth : Int := 0
  submodules : Bool := false
  skipDownload : Bool := false
  fetchTags : Bool := false
  integrationTool : String := ""
  mapMetadata : Bool := false
deriving Repr

/-- The pull-request detail `In` fetches: head/base refs and shas plus
the base repository's clone URL. -/
structure PullDetail where
  number : Int
  headRef : String
  headSha : String
  baseRef : String
  baseSha : String
  baseGitURL : String
deriving Repr

/-- The working-copy section of `In` (lines after the metadata writes):
when download is not skipped it initializes the copy at the base ref,
pulls the base, fetches the PR head, and then switches on
`integration_tool` — `rebase` (also the empty default), `merge`,
`checkout`, or an "invalid integration tool specified" error for
anything else.  The result is the sequence of Working-Copy Client calls
made (its happy path; a failing git call would truncate the trace) and
the error, if any, that `In` returns. -/
def downloadSteps (params : InParams) (pull : PullDetail) :
    List GitOp × Option String :=
  if params.skipDownload then ([], none)
  else
    let pre := [GitOp.init pull.baseRef,
      GitOp.pull pull.baseGitURL pull.baseRef params.gitDepth params.submodules
        params.fetchTags,
      GitOp.fetch pull.baseGitURL pull.number params.gitDepth params.submodules]
    match params.integrationTool with
    | "rebase" | "" =>
      (pre ++ [GitOp.rebase pull.baseRef pull.headSha params.submodules], none)
    | "merge" => (pre ++ [GitOp.merge pull.headSha params.submodules], none)
    | "checkout" =>
      (pre ++ [GitOp.checkout pull.headRef pull.headSha params.submodules], none)
    | tool => (pre, some ("invalid integration tool specified: " ++ tool))

/-! ## Helper lemmas about the scanner -/

/-- With no configured review states, the review-state predicate rejects
everything. -/
theorem requestsReviewState_empty {src : Source} (h : src.reviewStates = [])
    (s : String) : src.requestsReviewState s = false := by
  unfold Source.requestsReviewState
  rw [h]
  rfl

/-- The reviewer half of the review loop never touches `approvedBy`. -/
theorem reviewReviewerStep_approvedBy (src : Source) (memb : Membership)
    (v : Version) (r : Review) :
    (reviewReviewerStep src memb v r).approvedBy = v.approvedBy := by
  unfold reviewReviewerStep
  split_ifs <;> rfl

/-- The reviewer half of the review loop appends no review Response when
the review-state set is empty. -/
theorem reviewReviewerStep_reviewedBy_empty {src : Source}
    (h : src.reviewStates = []) (memb : Membership) (v : Version) (r : Review) :
    (reviewReviewerStep src memb v r).reviewedBy = v.reviewedBy := by
  unfold reviewReviewerStep
  rw [requestsReviewState_empty h]
  simp

/-! ## Claim theorems -/

/-- Concrete pull-request detail used by witnesses and counterexamples. -/
def exPullDetail : PullDetail :=
  { number := 5, headRef := "feature", headSha := "abc123",
    baseRef := "main", baseSha := "def456",
    baseGitURL := "git://example/repo.git" }

/-- **C1, as stated, fails** — counterexample: resolving with
`integration_tool = "squash"` and download not skipped does produce the
configuration error `invalid integration tool specified: squash`, but
only after `init`, `pull` and `fetch` have already run (the trace is not
empty when the error is raised); and with `skip_download = true` the same
unrecognized strategy produces no error at all. -/
theorem C1_counterexample :
    downloadSteps { integrationTool := "squash" } exPullDetail
      = ([GitOp.init "main",
          GitOp.pull "git://example/repo.git" "main" 0 false false,
          GitOp.fetch "git://example/repo.git" 5 0 false],
         some "invalid integration tool specified: squash")
    ∧ downloadSteps { integrationTool := "squash", skipDownload := true }
        exPullDetail = ([], none) := by
  constructor <;> rfl

/-- **C1 (amended)**: when download is not skipped, an unrecognized
integration strategy (not `rebase`, `merge`, `checkout`, or the empty
default) makes the invocation fail with the configuration error
`invalid integration tool specified: <tool>` — but only after the
working copy has been initialized, the base pulled and the PR head
fetched; no integration operation runs.  When download is skipped, an
unrecognized strategy produces no error. -/
theorem C1_amended_unknown_tool (params : InParams) (pull : PullDetail)
    (htool : params.integrationTool ∉ (["rebase", "", "merge", "checkout"] : List String)) :
    (params.skipDownload = false →
      downloadSteps params pull =
        ([GitOp.init pull.baseRef,
          GitOp.pull pull.baseGitURL pull.baseRef params.gitDepth
            params.submodules params.fetchTags,
          GitOp.fetch pull.baseGitURL pull.number params.gitDepth
            params.submodules],
         some ("invalid integration tool specified: " ++ params.integrationTool)))
    ∧ (params.skipDownload = true → downloadSteps params pull = ([], none)) := by
  simp only [List.mem_cons, List.mem_singleton, not_or] at htool
  obtain ⟨ht1, ht2, ht3, ht4, -⟩ := htool
  constructor
  · intro hs
    unfold downloadSteps
    rw [hs]
    simp only [Bool.false_eq_true, if_false]
  · intro hs
    unfold downloadSteps
    rw [hs]
    simp

/-- Witness for `C1_amended_unknown_tool` at `integration_tool = "squash"`. -/
theorem C1_amended_unknown_tool_witness :
    ("squash" ∉ (["rebase", "", "merge", "checkout"] : List String))
    ∧ downloadSteps { integrationTool := "squash" } exPullDetail
      = ([GitOp.init "main",
          GitOp.pull "git://example/repo.git" "main" 0 false false,
          GitOp.fetch "git://example/repo.git" 5 0 false],
         some ("invalid integration tool specified: " ++ "squash"))
    ∧ downloadSteps { integrationTool := "squash", skipDownload := true }
        exPullDetail = ([], none) :=
  ⟨by decide,
   (C1_amended_unknown_tool { integrationTool := "squash" } exPullDetail
     (by decide)).1 rfl,
   (C1_amended_unknown_tool { integrationTool := "squash", skipDownload := true }
     exPullDetail (by decide)).2 rfl⟩

/-- **C5**: for every non-negative count `n` and non-negative configured
minimums, `hasMinApprovers` and `hasMinReviewers` hold iff
`n ≥ max 1 min` — so a configured minimum of 0 still requires at least
one match. -/
theorem C5_minimum_satisfied (src : Source) (n : Int) (hn : 0 ≤ n)
    (hA : 0 ≤ src.minApprovals) (hR : 0 ≤ src.minReviews) :
    (src.hasMinApprovers n = true ↔ n ≥ max 1 src.minApprovals)
    ∧ (src.hasMinReviewers n = true ↔ n ≥ max 1 src.minReviews) := by
  unfold Source.hasMinApprovers Source.hasMinReviewers
  constructor <;>
    · simp only [ge_iff_le, decide_eq_true_eq]
      split_ifs <;> omega

/-- Witness for `C5_minimum_satisfied` on the default configuration
(`min_approvals = min_reviews = 0`) at count 1. -/
theorem C5_minimum_satisfied_witness :
    ((0 : Int) ≤ 1 ∧ (0 : Int) ≤ ({} : Source).minApprovals
      ∧ (0 : Int) ≤ ({} : Source).minReviews)
    ∧ (Source.hasMinApprovers {} 1 = true ↔ (1 : Int) ≥ max 1 ({} : Source).minApprovals)
    ∧ (Source.hasMinReviewers {} 1 = true ↔ (1 : Int) ≥ max 1 ({} : Source).minReviews) :=
  ⟨⟨by decide, by decide, by decide⟩,
   (C5_minimum_satisfied {} 1 (by decide) (by decide) (by decide)).1,
   (C5_minimum_satisfied {} 1 (by decide) (by decide) (by decide)).2⟩

/-- **C9**: the pull-request state predicate accepts a state iff it is
in the configured inclusion list (defaulting to exactly `{"open"}` when
unconfigured) and not in the exclusion list; a state in both lists is
rejected (exclusion wins). -/
theorem C9_state_predicate (src : Source) (state : String) :
    src.requestsState state = true ↔
      ((state ∈ if src.states = [] then ["open"] else src.states)
        ∧ state ∉ src.ignoreStates) := by
  simp only [Source.requestsState, List.any_eq_true, decide_eq_true_eq]
  split_ifs with hig h1 h2
  · obtain ⟨x, hx, rfl⟩ := hig
    simp [hx]
  · obtain ⟨x, hx, rfl⟩ := hig
    simp [hx]
  · have hnotin : state ∉ src.ignoreStates := fun hmem => hig ⟨state, hmem, rfl⟩
    simp [hnotin]
  · have hnotin : state ∉ src.ignoreStates := fun hmem => hig ⟨state, hmem, rfl⟩
    simp only [List.any_eq_true, decide_eq_true_eq, hnotin, not_false_iff,
      and_true]
    constructor
    · rintro ⟨x, hx, rfl⟩
      exact hx
    · intro hm
      exact ⟨state, hm, rfl⟩

/-- **C10, as stated, fails** in its comparative clause: an empty
configuration is not a wildcard for the pull-request state predicate —
it defaults to `{"open"}`, so the unconfigured predicate rejects the
concrete state `"closed"` (while, as the claim's core says, the empty
review-state set rejects every review state, here `"approved"`). -/
theorem C10_counterexample :
    Source.requestsState {} "closed" = false
    ∧ Source.requestsReviewState {} "approved" = false := by
  constructor <;> rfl

/-- **C10 (amended)**: with an empty `review_states` set the
review-state predicate rejects every state, so during scan no review
message is ever recorded as a reviewer match — unlike the label, regex,
and team predicates, for which an empty configuration is a wildcard
(the state predicate's empty configuration is no wildcard either: it
defaults to accepting exactly `"open"`). -/
theorem C10_empty_review_states (src srcE : Source) (memb : Membership)
    (h : src.reviewStates = [])
    (hE1 : srcE.labels = []) (hE2 : srcE.ignoreLabels = [])
    (hE3 : srcE.approverComments = []) (hE4 : srcE.reviewerComments = [])
    (hE5 : srcE.approverTeams = []) (hE6 : srcE.reviewerTeams = [])
    (hE7 : srcE.states = []) (hE8 : srcE.ignoreStates = []) :
    (∀ s, src.requestsReviewState s = false)
    ∧ (∀ v r, (processReview src memb v r).reviewedBy = v.reviewedBy)
    ∧ (∀ ls, srcE.requestsLabels ls = true)
    ∧ (∀ b, srcE.requestsApproverRegex b = true)
    ∧ (∀ b, srcE.requestsReviewerRegex b = true)
    ∧ (∀ u, srcE.requestsApproverTeam memb u = true)
    ∧ (∀ u, srcE.requestsReviewerTeam memb u = true)
    ∧ (∀ s, srcE.requestsState s = decide (s = "open")) := by
  refine ⟨fun s => requestsReviewState_empty h s, ?_, ?_, ?_, ?_, ?_, ?_, ?_⟩
  · intro v r
    unfold processReview
    split_ifs <;> simp [reviewReviewerStep_reviewedBy_empty h]
  · intro ls
    unfold Source.requestsLabels
    rw [hE1, hE2]
    simp
  · intro b
    unfold Source.requestsApproverRegex
    rw [hE3]
    rfl
  · intro b
    unfold Source.requestsReviewerRegex
    rw [hE4]
    rfl
  · intro u
    unfold Source.requestsApproverTeam
    rw [hE5]
    simp
  · intro u
    unfold Source.requestsReviewerTeam
    rw [hE6]
    simp
  · intro s
    unfold Source.requestsState
    rw [hE7, hE8]
    simp

/-- A concrete review used by witnesses. -/
def exReview : Review :=
  { id := 11, body := "Reviewed-by: bob", state := "approved",
    userLogin := "bob", submittedAt := 50 }

/-- Witness for `C10_empty_review_states` on the default (all-empty)
configuration. -/
theorem C10_empty_review_states_witness :
    Source.requestsReviewState {} "approved" = false
    ∧ (processReview {} (fun _ _ => true) {} exReview).reviewedBy
        = ({} : Version).reviewedBy
    ∧ Source.requestsLabels {} ["bug"] = true
    ∧ Source.requestsApproverRegex {} "anything" = true
    ∧ Source.requestsReviewerRegex {} "anything" = true
    ∧ Source.requestsApproverTeam {} (fun _ _ => true) "alice" = true
    ∧ Source.requestsReviewerTeam {} (fun _ _ => true) "alice" = true
    ∧ Source.requestsState {} "open" = decide ("open" = "open") := by
  obtain ⟨a, b, c, d, e, f, g, hst⟩ :=
    C10_empty_review_states {} {} (fun _ _ => true) rfl rfl rfl rfl rfl rfl rfl rfl rfl
  exact ⟨a "approved", b {} exReview, c ["bug"], d "anything", e "anything",
    f "alice", g "alice", hst "open"⟩

/-- **C3**: approver-kind classification of a review message depends
only on the approver regex and approver team predicates — the review's
own state neither prevents nor otherwise influences whether it is
recorded as an approval Response. -/
theorem C3_review_approval_not_state_gated (src : Source) (memb : Membership)
    (v : Version) (r : Review) :
    (processReview src memb v r).approvedBy
      = if src.requestsApproverRegex r.body
            ∧ src.requestsApproverTeam memb r.userLogin
        then v.approvedBy
          ++ [{ reviewID := toString r.id, createdAt := toString r.submittedAt }]
        else v.approvedBy := by
  unfold processReview Source.requestsApproveState
  split_ifs <;> simp_all [reviewReviewerStep_approvedBy]

/-- **C2**: a comment whose body and author satisfy both the approver
predicates (regex and team) and the reviewer predicates (regex and team)
is recorded by the scanner both as an approval Response and as a review
Response in the same pull request's version state. -/
theorem C2_comment_recorded_twice (src : Source) (memb : Membership)
    (v : Version) (c : Comment)
    (ha1 : src.requestsApproverRegex c.body = true)
    (ha2 : src.requestsApproverTeam memb c.userLogin = true)
    (hr1 : src.requestsReviewerRegex c.body = true)
    (hr2 : src.requestsReviewerTeam memb c.userLogin = true) :
    (processComment src memb v c).approvedBy
        = v.approvedBy
          ++ [{ commentID := toString c.id, createdAt := toString c.createdAt }]
    ∧ (processComment src memb v c).reviewedBy
        = v.reviewedBy
          ++ [{ commentID := toString c.id, createdAt := toString c.createdAt }] := by
  unfold processComment commentReviewerStep Source.requestsApproveState
  rw [ha1, ha2, hr1, hr2]
  split_ifs <;>
    simp_all [apply_ite Version.approvedBy, apply_ite Version.reviewedBy]

/-- A concrete comment used by witnesses. -/
def exComment : Comment :=
  { id := 7, body := "Approved-by: alice", userLogin := "alice",
    createdAt := 100 }

/-- Witness for `C2_comment_recorded_twice` on the default (wildcard)
configuration. -/
theorem C2_comment_recorded_twice_witness :
    (Source.requestsApproverRegex {} "Approved-by: alice" = true
      ∧ Source.requestsApproverTeam {} (fun _ _ => false) "alice" = true
      ∧ Source.requestsReviewerRegex {} "Approved-by: alice" = true
      ∧ Source.requestsReviewerTeam {} (fun _ _ => false) "alice" = true)
    ∧ (processComment {} (fun _ _ => false) {} exComment).approvedBy
        = ({} : Version).approvedBy ++ [{ commentID := "7", createdAt := "100" }]
    ∧ (processComment {} (fun _ _ => false) {} exComment).reviewedBy
        = ({} : Version).reviewedBy ++ [{ commentID := "7", createdAt := "100" }] := by
  refine ⟨⟨rfl, rfl, rfl, rfl⟩, ?_, ?_⟩
  · exact (C2_comment_recorded_twice {} (fun _ _ => false) {} exComment
      rfl rfl rfl rfl).1
  · exact (C2_comment_recorded_twice {} (fun _ _ => false) {} exComment
      rfl rfl rfl rfl).2

/-! ### Association-map lemmas for the capture claims -/

theorem mapFind_cons (p : String × String) (m : GoMap) (k : String) :
    mapFind (p :: m) k = if p.1 = k then some p.2 else mapFind m k := by
  unfold mapFind
  by_cases hp : p.1 = k
  · rw [List.find?_cons_of_pos _ (by simpa using hp), if_pos hp]
    rfl
  · rw [List.find?_cons_of_neg _ (by simpa using hp), if_neg hp]

theorem mapFind_map_ne (m : GoMap) (k : String) (v : String) {k' : String}
    (h : k' ≠ k) :
    mapFind (m.map (fun p => if p.1 = k then (k, v) else p)) k' = mapFind m k' := by
  induction m with
  | nil => rfl
  | cons p m ih =>
    simp only [List.map_cons]
    by_cases hp : p.1 = k
    · rw [if_pos hp, mapFind_cons, mapFind_cons, hp,
        if_neg (fun hk => h hk.symm), if_neg (fun hk => h hk.symm)]
      exact ih
    · rw [if_neg hp, mapFind_cons, mapFind_cons]
      by_cases hk' : p.1 = k'
      · rw [if_pos hk', if_pos hk']
      · rw [if_neg hk', if_neg hk']
        exact ih

theorem mapFind_map_self (m : GoMap) (k v : String)
    (h : m.any (fun p => p.1 = k) = true) :
    mapFind (m.map (fun p => if p.1 = k then (k, v) else p)) k = some v := by
  induction m with
  | nil => simp at h
  | cons p m ih =>
    simp only [List.map_cons]
    by_cases hp : p.1 = k
    · rw [if_pos hp, mapFind_cons, if_pos rfl]
    · have h' : m.any (fun p => p.1 = k) = true := by
        simp only [List.any_cons, Bool.or_eq_true, decide_eq_true_eq] at h
        rcases h with h | h
        · exact absurd h hp
        · exact h
      rw [if_neg hp, mapFind_cons, if_neg hp]
      exact ih h'

/-- Go map semantics: after `m[k] = v`, looking up `k` yields `v` and
every other key is unchanged. -/
theorem mapFind_mapInsert (m : GoMap) (k v k' : String) :
    mapFind (mapInsert m k v) k' = if k' = k then some v else mapFind m k' := by
  unfold mapInsert
  by_cases hany : m.any (fun p => p.1 = k) = true
  · rw [if_pos hany]
    by_cases hk : k' = k
    · subst hk
      rw [if_pos rfl]
      exact mapFind_map_self m k' v hany
    · rw [if_neg hk]
      exact mapFind_map_ne m k v hk
  · rw [if_neg hany]
    induction m with
    | nil =>
      rw [List.nil_append, mapFind_cons]
      by_cases hk : k' = k
      · subst hk
        simp
      · rw [if_neg (show ¬ k = k' from fun he => hk he.symm), if_neg hk]
    | cons p m ih =>
      have hp : p.1 ≠ k := by
        intro he
        exact hany (by simp [List.any_cons, he])
      have hany' : ¬ m.any (fun p => p.1 = k) = true := by
        intro hm
        exact hany (by simp [List.any_cons, hm])
      simp only [List.cons_append, mapFind_cons]
      by_cases hpk : p.1 = k'
      · rw [if_pos hpk, if_pos hpk]
        rw [if_neg (fun he => hp (hpk.trans he))]
      · rw [if_neg hpk, if_neg hpk]
        exact ih hany'

/-- A key outside a map's key list looks up to nothing. -/
theorem mapFind_eq_none {m : GoMap} {k : String}
    (h : k ∉ m.map Prod.fst) : mapFind m k = none := by
  induction m with
  | nil => rfl
  | cons p m ih =>
    simp only [List.map_cons, List.mem_cons, not_or] at h
    rw [mapFind_cons, if_neg (fun he => h.1 he.symm)]
    exact ih h.2

/-- Inserting preserves the key list when the key is present, else
appends it. -/
theorem mapInsert_keys (m : GoMap) (k v : String) :
    (mapInsert m k v).map Prod.fst =
      if m.any (fun p => p.1 = k) = true then m.map Prod.fst
      else m.map Prod.fst ++ [k] := by
  unfold mapInsert
  split_ifs with h
  · simp only [List.map_map]
    congr 1
    funext p
    by_cases hp : p.1 = k
    · simp [hp]
    · simp [hp]
  · simp

/-- Inserting preserves key uniqueness. -/
theorem mapInsert_nodup {m : GoMap} (k v : String)
    (h : (m.map Prod.fst).Nodup) : ((mapInsert m k v).map Prod.fst).Nodup := by
  rw [mapInsert_keys]
  split_ifs with hany
  · exact h
  · have hk : k ∉ m.map Prod.fst := by
      intro hmem
      apply hany
      simp only [List.mem_map] at hmem
      obtain ⟨p, hp, he⟩ := hmem
      simp only [List.any_eq_true, decide_eq_true_eq]
      exact ⟨p, hp, he⟩
    simp [List.nodup_append, h, hk]

/-- Folding conditional inserts preserves key uniqueness. -/
theorem foldl_cond_insert_nodup {α : Type} (Q : α → Prop) [DecidablePred Q]
    (key : α → String) (val : α → String) :
    ∀ (L : List α) (acc : GoMap), (acc.map Prod.fst).Nodup →
      (((L.foldl (fun pm p => if Q p then mapInsert pm (key p) (val p) else pm)
          acc).map Prod.fst)).Nodup := by
  intro L
  induction L with
  | nil => intro acc h; exact h
  | cons p L ih =>
    intro acc h
    simp only [List.foldl_cons]
    by_cases hq : Q p
    · rw [if_pos hq]
      exact ih _ (mapInsert_nodup _ _ h)
    · rw [if_neg hq]
      exact ih _ h

/-- Which keys a conditional-insert fold produces. -/
theorem foldl_cond_insert_find {α : Type} (Q : α → Prop) [DecidablePred Q]
    (key : α → String) (val : α → String) :
    ∀ (L : List α) (acc : GoMap) (k : String),
      (∃ v, mapFind (L.foldl
          (fun pm p => if Q p then mapInsert pm (key p) (val p) else pm) acc) k
        = some v)
      ↔ ((∃ p ∈ L, Q p ∧ key p = k) ∨ ∃ v, mapFind acc k = some v) := by
  intro L
  induction L with
  | nil => simp
  | cons p L ih =>
    intro acc k
    simp only [List.foldl_cons, List.mem_cons]
    rw [ih]
    by_cases hq : Q p
    · rw [if_pos hq]
      simp only [mapFind_mapInsert]
      by_cases hk : k = key p
      · subst hk
        simp [hq]
      · rw [if_neg hk]
        constructor
        · rintro (⟨q, hq2, hq3⟩ | hv)
          · exact Or.inl ⟨q, Or.inr hq2, hq3⟩
          · exact Or.inr hv
        · rintro (⟨q, hq2 | hq2, hq3⟩ | hv)
          · subst hq2
            exact absurd hq3.2.symm hk
          · exact Or.inl ⟨q, hq2, hq3⟩
          · exact Or.inr hv
    · rw [if_neg hq]
      constructor
      · rintro (⟨q, hq2, hq3⟩ | hv)
        · exact Or.inl ⟨q, Or.inr hq2, hq3⟩
        · exact Or.inr hv
      · rintro (⟨q, hq2 | hq2, hq3⟩ | hv)
        · subst hq2
          exact absurd hq3.1 hq
        · exact Or.inl ⟨q, hq2, hq3⟩
        · exact Or.inr hv

/-- `getParams` never produces duplicate keys. -/
theorem getParams_nodup (re : GoRegex) (body : String) :
    ((getParams re body).map Prod.fst).Nodup := by
  unfold getParams
  exact foldl_cond_insert_nodup _ _ _ _ [] (by simp)

/-- Folding the entries of a duplicate-free map into an accumulator by
`mapInsert`: the folded map's entries win over the accumulator's. -/
theorem foldl_insert_union (M : GoMap) :
    (M.map Prod.fst).Nodup →
    ∀ (acc : GoMap) (k : String),
      mapFind (M.foldl (fun a pr => mapInsert a pr.1 pr.2) acc) k
        = match mapFind M k with
          | some w => some w
          | none => mapFind acc k := by
  induction M with
  | nil => intro _ acc k; rfl
  | cons pr M ih =>
    intro hnd acc k
    simp only [List.map_cons, List.nodup_cons] at hnd
    simp only [List.foldl_cons]
    rw [ih hnd.2, mapFind_cons]
    by_cases hk : pr.1 = k
    · subst hk
      rw [if_pos rfl, mapFind_eq_none hnd.1]
      show mapFind (mapInsert acc pr.1 pr.2) pr.1 = some pr.2
      rw [mapFind_mapInsert, if_pos rfl]
    · rw [if_neg hk]
      cases hM : mapFind M k with
      | none =>
        show mapFind (mapInsert acc pr.1 pr.2) k = mapFind acc k
        rw [mapFind_mapInsert, if_neg (show ¬ k = pr.1 from fun he => hk he.symm)]
      | some w => rfl

/-- The inner loop of `captureFields` is an append of the renamed
entries. -/
theorem captureFields_inner (g : String → String) :
    ∀ (m : GoMap) (md : Metadata),
      m.foldl (fun md2 kv => md2 ++ [(g kv.1, kv.2)]) md
        = md ++ m.map (fun kv => (g kv.1, kv.2)) := by
  intro m
  induction m with
  | nil => simp
  | cons kv m ih =>
    intro md
    simp only [List.foldl_cons, List.map_cons]
    rw [ih]
    simp

/-- `captureFields` is the concatenation of each message's renamed
capture entries. -/
theorem captureFields_eq :
    ∀ (L : List (Nat × GoMap)) (md : Metadata),
      L.foldl (fun md p => p.2.foldl
          (fun md2 kv => md2 ++ [(kv.1 ++ "_" ++ toString (p.1 + 1), kv.2)]) md) md
        = md ++ (L.map (fun p =>
            p.2.map (fun kv => (kv.1 ++ "_" ++ toString (p.1 + 1), kv.2)))).flatten := by
  intro L
  induction L with
  | nil => simp
  | cons p L ih =>
    intro md
    simp only [List.foldl_cons, List.map_cons, List.flatten_cons]
    rw [captureFields_inner (fun s => s ++ "_" ++ toString (p.1 + 1)), ih]
    simp

/-- Every capture `(k, v)` of the message at 0-based index `i`
contributes the metadata field `k_<i+1>`. -/
theorem captureFields_mem {msgs : List GoMap} {i : Nat} {m : GoMap}
    {k v : String} (hmsg : msgs.get? i = some m) (hkv : (k, v) ∈ m) :
    (k ++ "_" ++ toString (i + 1), v) ∈ captureFields msgs := by
  unfold captureFields
  rw [captureFields_eq]
  simp only [List.nil_append, List.mem_flatten, List.mem_map]
  refine ⟨m.map (fun kv => (kv.1 ++ "_" ++ toString (i + 1), kv.2)), ⟨(i, m), ?_, rfl⟩, ?_⟩
  · rw [List.mk_mem_enum_iff_getElem?]
    simpa [← List.get?_eq_getElem?] using hmsg
  · exact List.mem_map_of_mem _ hkv

/-- The compiled behaviour of the Go pattern `(Approved)`: one *unnamed*
capture group, so `SubexpNames() = ["", ""]`; on the body `"Approved"`
the submatches are the whole match and the group text. -/
def exUnnamedRegex : GoRegex :=
  { names := ["", ""],
    find := fun b => if b = "Approved" then some ["Approved", "Approved"] else none }

/-- The compiled behaviour of the Go pattern
`Approved-by: (?P<approved_by>.*)`: one *named* capture group. -/
def exNamedRegex : GoRegex :=
  { names := ["", "approved_by"],
    find := fun b =>
      if b = "Approved-by: alice" then some ["Approved-by: alice", "alice"]
      else none }

/-- **C4, as stated, fails** — counterexample: for the compiled pattern
`(Approved)` (a single unnamed capture group) matched against the body
`"Approved"`, `getParams` does not drop the unnamed group; it stores its
text under the empty name (Go's `SubexpNames()` yields `""` there), and
the resolver's metadata loop then emits a field literally named `_1`. -/
theorem C4_counterexample :
    getParams exUnnamedRegex "Approved" = [("", "Approved")]
    ∧ captureFields [getParams exUnnamedRegex "Approved"]
        = [("_1", "Approved")] := by
  constructor <;> rfl

/-- **C4 (amended)**: every capture group at index `i > 0` — named or
not — contributes an entry to the message's capture map under
`SubexpNames()[i]` (the empty string for an unnamed group, so unnamed
groups are not dropped but collapse into one empty-named entry), and
every entry `(k, v)` of the map of the message at 0-based position `i`
becomes a metadata field named `k_<i+1>` — for unnamed captures a field
named `_<i+1>`. -/
theorem C4_amended_unnamed_under_empty_name (re : GoRegex) (body : String)
    (ms : List String) (hms : re.find body = some ms)
    (hwf : ms.length = re.names.length) :
    (∀ k, (∃ v, mapFind (getParams re body) k = some v)
        ↔ ∃ i, 0 < i ∧ re.names.get? i = some k)
    ∧ (∀ msgs i m v, msgs.get? i = some m → ("", v) ∈ m →
        ("" ++ "_" ++ toString (i + 1), v) ∈ captureFields msgs) := by
  constructor
  · intro k
    have H := foldl_cond_insert_find
      (fun p : Nat × String => 0 < p.1 ∧ p.1 ≤ ms.length) Prod.snd
      (fun p => ms.getD p.1 "") re.names.enum [] k
    simp only [getParams, hms]
    rw [H]
    simp only [mapFind, List.find?_nil, Option.map_none', false_and,
      exists_false, or_false, reduceCtorEq]
    constructor
    · rintro ⟨⟨i, name⟩, hpmem, ⟨hpos, -⟩, rfl⟩
      rw [List.mk_mem_enum_iff_getElem?] at hpmem
      exact ⟨i, hpos, by simpa [List.get?_eq_getElem?] using hpmem⟩
    · rintro ⟨i, hpos, hget⟩
      have hlt : i < re.names.length := by
        rw [List.get?_eq_getElem?] at hget
        exact (List.getElem?_eq_some.mp hget).1
      refine ⟨(i, k), ?_, ⟨hpos, by omega⟩, rfl⟩
      rw [List.mk_mem_enum_iff_getElem?, ← List.get?_eq_getElem?]
      exact hget
  · intro msgs i m v hmsg hkv
    exact captureFields_mem hmsg hkv

/-- Witness for `C4_amended_unnamed_under_empty_name` on the unnamed
pattern `(Approved)`. -/
theorem C4_amended_witness :
    (exUnnamedRegex.find "Approved" = some ["Approved", "Approved"]
      ∧ (["Approved", "Approved"] : List String).length
          = exUnnamedRegex.names.length)
    ∧ ((∃ v, mapFind (getParams exUnnamedRegex "Approved") "" = some v)
        ↔ ∃ i, 0 < i ∧ exUnnamedRegex.names.get? i = some "")
    ∧ ("" ++ "_" ++ toString (0 + 1), "Approved")
        ∈ captureFields [getParams exUnnamedRegex "Approved"] := by
  refine ⟨⟨rfl, rfl⟩, ?_, ?_⟩
  · exact (C4_amended_unnamed_under_empty_name exUnnamedRegex "Approved"
      ["Approved", "Approved"] rfl rfl).1 ""
  · exact (C4_amended_unnamed_under_empty_name exUnnamedRegex "Approved"
      ["Approved", "Approved"] rfl rfl).2
      [getParams exUnnamedRegex "Approved"] 0 _ "Approved" rfl (by decide)

/-- Appending one more pattern: its captures win on collision. -/
theorem computeMatches_snoc (ps : List GoRegex) (p : GoRegex) (body : String)
    (k : String) :
    mapFind (computeMatches (ps ++ [p]) body) k
      = match mapFind (getParams p body) k with
        | some w => some w
        | none => mapFind (computeMatches ps body) k := by
  unfold computeMatches
  rw [List.foldl_append]
  simp only [List.foldl_cons, List.foldl_nil]
  exact foldl_insert_union (getParams p body) (getParams_nodup p body) _ k

/-- Splitting the configured patterns anywhere: on a collision the later
segment's merge wins over the earlier segment's. -/
theorem computeMatches_append (body : String) :
    ∀ (qs ps : List GoRegex) (k : String),
      mapFind (computeMatches (ps ++ qs) body) k
        = match mapFind (computeMatches qs body) k with
          | some w => some w
          | none => mapFind (computeMatches ps body) k := by
  intro qs
  induction qs with
  | nil =>
    intro ps k
    rw [List.append_nil]
    rfl
  | cons q qs ih =>
    intro ps k
    have hsingle : ∀ k', mapFind (computeMatches [q] body) k'
        = mapFind (getParams q body) k' := by
      intro k'
      have h := computeMatches_snoc [] q body k'
      rw [List.nil_append] at h
      rw [h]
      cases mapFind (getParams q body) k' <;> rfl
    rw [show ps ++ q :: qs = (ps ++ [q]) ++ qs by simp, ih (ps ++ [q]) k,
      show q :: qs = [q] ++ qs from rfl, ih [q] k, computeMatches_snoc,
      hsingle k]
    cases mapFind (computeMatches qs body) k <;>
      cases mapFind (getParams q body) k <;> rfl

/-- **C8**: every capture `(k, v)` of the message at 1-based position
`i + 1` of its (approval or review) list contributes a metadata field
literally named `k_<i+1>`; and within one message the captures of all
configured patterns merge into a single name-to-value map in which, on a
name collision, the pattern later in configuration order wins: splitting
the configuration anywhere, a lookup prefers the later patterns' merge,
and in particular the last pattern's own capture. -/
theorem C8_capture_metadata (msgs : List GoMap) (i : Nat) (m : GoMap)
    (k v : String) (hmsg : msgs.get? i = some m) (hkv : (k, v) ∈ m)
    (ps qs : List GoRegex) (p : GoRegex) (body : String) :
    (k ++ "_" ++ toString (i + 1), v) ∈ captureFields msgs
    ∧ (∀ k', mapFind (computeMatches (ps ++ qs) body) k'
        = match mapFind (computeMatches qs body) k' with
          | some w => some w
          | none => mapFind (computeMatches ps body) k')
    ∧ (∀ k', mapFind (computeMatches (ps ++ [p]) body) k'
        = match mapFind (getParams p body) k' with
          | some w => some w
          | none => mapFind (computeMatches ps body) k') :=
  ⟨captureFields_mem hmsg hkv,
   fun k' => computeMatches_append body qs ps k',
   fun k' => computeMatches_snoc ps p body k'⟩

/-- Witness for `C8_capture_metadata`: a one-entry capture map and the
named pattern, with the later-wins equation read off at the captured
name. -/
theorem C8_capture_metadata_witness :
    (([[("x", "1")]] : List GoMap).get? 0 = some [("x", "1")]
      ∧ ("x", "1") ∈ ([("x", "1")] : GoMap))
    ∧ ("x" ++ "_" ++ toString (0 + 1), "1") ∈ captureFields [[("x", "1")]]
    ∧ (mapFind (computeMatches ([] ++ [exNamedRegex]) "Approved-by: alice")
          "approved_by"
        = match mapFind (computeMatches [exNamedRegex] "Approved-by: alice")
              "approved_by" with
          | some w => some w
          | none => mapFind (computeMatches [] "Approved-by: alice") "approved_by")
    ∧ (mapFind (computeMatches ([] ++ [exNamedRegex]) "Approved-by: alice")
          "approved_by"
        = match mapFind (getParams exNamedRegex "Approved-by: alice")
              "approved_by" with
          | some w => some w
          | none => mapFind (computeMatches [] "Approved-by: alice") "approved_by") := by
  refine ⟨⟨rfl, by simp⟩, ?_, ?_, ?_⟩
  · exact (C8_capture_metadata [[("x", "1")]] 0 [("x", "1")] "x" "1" rfl
      (by simp) [] [exNamedRegex] exNamedRegex "Approved-by: alice").1
  · exact (C8_capture_metadata [[("x", "1")]] 0 [("x", "1")] "x" "1" rfl
      (by simp) [] [exNamedRegex] exNamedRegex "Approved-by: alice").2.1
      "approved_by"
  · exact (C8_capture_metadata [[("x", "1")]] 0 [("x", "1")] "x" "1" rfl
      (by simp) [] [exNamedRegex] exNamedRegex "Approved-by: alice").2.2
      "approved_by"

/-! ### Last-activity characterization (for C6) -/

/-- A comment updates the running last-activity value (and is recorded)
iff it matches the approver predicates or the reviewer predicates. -/
def commentMatched (src : Source) (memb : Membership) (c : Comment) : Bool :=
  (src.requestsApproverRegex c.body && src.requestsApproverTeam memb c.userLogin)
  || (src.requestsReviewerRegex c.body && src.requestsReviewerTeam memb c.userLogin)

/-- A review updates the running last-activity value (and is recorded)
iff it matches the approver predicates, or the reviewer predicates
together with the review-state gate. -/
def reviewMatched (src : Source) (memb : Membership) (r : Review) : Bool :=
  (src.requestsApproverRegex r.body && src.requestsApproverTeam memb r.userLogin)
  || (src.requestsReviewerRegex r.body && src.requestsReviewerTeam memb r.userLogin
      && src.requestsReviewState r.state)

/-- The timestamps of the matched messages of one pull request, in scan
order: the creation times of the matched comments followed by the
submission times of the matched reviews. -/
def matchedTimes (src : Source) (memb : Membership) (comments : List Comment)
    (reviews : List Review) : List Int :=
  (comments.filter (commentMatched src memb)).map Comment.createdAt
  ++ (reviews.filter (reviewMatched src memb)).map Review.submittedAt

theorem commentReviewerStep_lastUpdated (src : Source) (memb : Membership)
    (v : Version) (c : Comment) :
    (commentReviewerStep src memb v c).lastUpdated
      = if src.requestsReviewerRegex c.body
            ∧ src.requestsReviewerTeam memb c.userLogin
        then max v.lastUpdated c.createdAt else v.lastUpdated := by
  unfold commentReviewerStep
  split_ifs <;> simp_all <;> omega

theorem processComment_lastUpdated (src : Source) (memb : Membership)
    (v : Version) (c : Comment) :
    (processComment src memb v c).lastUpdated
      = if commentMatched src memb c
        then max v.lastUpdated c.createdAt else v.lastUpdated := by
  unfold processComment Source.requestsApproveState commentMatched
  by_cases h1 : src.requestsApproverRegex c.body = true <;>
    by_cases h2 : src.requestsApproverTeam memb c.userLogin = true <;>
    simp only [h1, h2, eq_self_iff_true, Bool.false_eq_true, Bool.true_and,
      Bool.false_and, Bool.true_or, Bool.false_or, Bool.or_false, Bool.or_true,
      not_true, not_false_iff, if_true, if_false] <;>
    rw [commentReviewerStep_lastUpdated] <;>
    split_ifs <;>
    simp_all <;>
    omega

theorem reviewReviewerStep_lastUpdated (src : Source) (memb : Membership)
    (v : Version) (r : Review) :
    (reviewReviewerStep src memb v r).lastUpdated
      = if src.requestsReviewerRegex r.body
            ∧ src.requestsReviewerTeam memb r.userLogin
            ∧ src.requestsReviewState r.state
        then max v.lastUpdated r.submittedAt else v.lastUpdated := by
  unfold reviewReviewerStep
  split_ifs <;> simp_all <;> omega

theorem processReview_lastUpdated (src : Source) (memb : Membership)
    (v : Version) (r : Review) :
    (processReview src memb v r).lastUpdated
      = if reviewMatched src memb r
        then max v.lastUpdated r.submittedAt else v.lastUpdated := by
  unfold processReview Source.requestsApproveState reviewMatched
  by_cases h1 : src.requestsApproverRegex r.body = true <;>
    by_cases h2 : src.requestsApproverTeam memb r.userLogin = true <;>
    simp only [h1, h2, eq_self_iff_true, Bool.false_eq_true, Bool.true_and,
      Bool.false_and, Bool.true_or, Bool.false_or, Bool.or_false, Bool.or_true,
      not_true, not_false_iff, if_true, if_false] <;>
    rw [reviewReviewerStep_lastUpdated] <;>
    split_ifs <;>
    simp_all <;>
    omega

theorem foldComments_lastUpdated (src : Source) (memb : Membership) :
    ∀ (comments : List Comment) (v : Version),
      (comments.foldl (fun v c => processComment src memb v c) v).lastUpdated
        = ((comments.filter (commentMatched src memb)).map
            Comment.createdAt).foldl max v.lastUpdated := by
  intro comments
  induction comments with
  | nil => intro v; rfl
  | cons c cs ih =>
    intro v
    simp only [List.foldl_cons]
    rw [ih]
    by_cases hc : commentMatched src memb c = true
    · rw [List.filter_cons_of_pos hc]
      simp only [List.map_cons, List.foldl_cons]
      rw [processComment_lastUpdated, if_pos hc]
    · rw [List.filter_cons_of_neg (by simpa using hc)]
      rw [processComment_lastUpdated, if_neg (by simpa using hc)]

theorem foldReviews_lastUpdated (src : Source) (memb : Membership) :
    ∀ (reviews : List Review) (v : Version),
      (reviews.foldl (fun v r => processReview src memb v r) v).lastUpdated
        = ((reviews.filter (reviewMatched src memb)).map
            Review.submittedAt).foldl max v.lastUpdated := by
  intro reviews
  induction reviews with
  | nil => intro v; rfl
  | cons r rs ih =>
    intro v
    simp only [List.foldl_cons]
    rw [ih]
    by_cases hr : reviewMatched src memb r = true
    · rw [List.filter_cons_of_pos hr]
      simp only [List.map_cons, List.foldl_cons]
      rw [processReview_lastUpdated, if_pos hr]
    · rw [List.filter_cons_of_neg (by simpa using hr)]
      rw [processReview_lastUpdated, if_neg (by simpa using hr)]

/-- An emitted Version's `lastUpdated` is the running maximum, started
from 0, of the matched messages' timestamps. -/
theorem scanPR_lastUpdated {src : Source} {memb : Membership} {pull : Pull}
    {comments : List Comment} {reviews : List Review} {v : Version}
    (h : scanPR src memb pull comments reviews = some v) :
    v.lastUpdated = (matchedTimes src memb comments reviews).foldl max 0 := by
  unfold scanPR at h
  split_ifs at h with h1 h2 h3 h4
  dsimp only at h
  split at h
  · simp only [Option.some.injEq] at h
    subst h
    show (reviews.foldl (fun v r => processReview src memb v r)
        (comments.foldl (fun v c => processComment src memb v c)
          { PrID := toString pull.number })).lastUpdated = _
    rw [foldReviews_lastUpdated, foldComments_lastUpdated, matchedTimes,
      List.foldl_append]
  · exact Option.noConfusion h

/-- The scan output is sorted by `lastUpdated` (insertion sort with a
total, transitive order). -/
theorem Check_sorted (src : Source) (memb : Membership) (pulls : List PullData) :
    List.Sorted (fun a b : Version => a.lastUpdated ≤ b.lastUpdated)
      (Check src memb pulls) := by
  unfold Check sortVersions
  haveI : IsTotal Version (fun a b => a.lastUpdated ≤ b.lastUpdated) :=
    ⟨fun a b => le_total a.lastUpdated b.lastUpdated⟩
  haveI : IsTrans Version (fun a b => a.lastUpdated ≤ b.lastUpdated) :=
    ⟨fun a b c hab hbc => le_trans hab hbc⟩
  exact List.sorted_insertionSort _ _

/-- A pull request and comment used by the C6 discussion: the comment's
timestamp is negative (a pre-1970 creation time). -/
def exPullNeg : Pull :=
  { number := 9, state := "open", labels := [], mergeable := true,
    draft := false }

/-- A matched comment with `CreatedAt.Unix() = -1`. -/
def exCommentNeg : Comment :=
  { id := 3, body := "x", userLogin := "bob", createdAt := -1 }

/-- **C6, as stated, fails** in its last-activity clause — counterexample:
with the wildcard configuration, a pull request whose single matched
comment has timestamp `-1` is emitted with `lastUpdated = 0` (the Go
zero value of the running maximum, which is only overwritten by strictly
greater timestamps), although the maximum timestamp over its matched
approval and review Responses is `-1 ≠ 0`. -/
theorem C6_counterexample :
    (scanPR {} (fun _ _ => false) exPullNeg [exCommentNeg] []).map
        Version.lastUpdated = some 0
    ∧ (scanPR {} (fun _ _ => false) exPullNeg [exCommentNeg] []).map
        Version.approvedBy = some [{ commentID := "3", createdAt := "-1" }]
    ∧ (scanPR {} (fun _ _ => false) exPullNeg [exCommentNeg] []).map
        Version.reviewedBy = some [{ commentID := "3", createdAt := "-1" }]
    ∧ (0 : Int) ≠ -1 := by
  refine ⟨rfl, rfl, rfl, by decide⟩

/-- **C6 (amended)**: the scan phase's final output is ordered ascending
by each Version's `lastUpdated`, and for every emitted Version that
value is the running maximum, started from 0, of the timestamps of the
pull request's matched messages — i.e. the maximum of 0 and all matched
approval/review timestamps (not the plain maximum of the Responses'
timestamps, which differs when every matched timestamp is negative). -/
theorem C6_amended_sorted_by_running_max (src : Source) (memb : Membership)
    (pulls : List PullData) :
    List.Sorted (fun a b : Version => a.lastUpdated ≤ b.lastUpdated)
      (Check src memb pulls)
    ∧ ∀ pull comments reviews v,
        scanPR src memb pull comments reviews = some v →
        v.lastUpdated = (matchedTimes src memb comments reviews).foldl max 0 :=
  ⟨Check_sorted src memb pulls, fun _ _ _ _ h => scanPR_lastUpdated h⟩

/-- Witness for `C6_amended_sorted_by_running_max` on a concrete
one-pull scan. -/
theorem C6_amended_witness :
    scanPR {} (fun _ _ => false) exPullNeg [exCommentNeg] []
      = some { PrID := "9",
               ApprovedBy := marshalResponses [{ commentID := "3", createdAt := "-1" }],
               approvedBy := [{ commentID := "3", createdAt := "-1" }],
               ReviewedBy := marshalResponses [{ commentID := "3", createdAt := "-1" }],
               reviewedBy := [{ commentID := "3", createdAt := "-1" }],
               lastUpdated := 0 }
    ∧ (0 : Int) = (matchedTimes {} (fun _ _ => false) [exCommentNeg] []).foldl max 0
    ∧ List.Sorted (fun a b : Version => a.lastUpdated ≤ b.lastUpdated)
        (Check {} (fun _ _ => false) [⟨exPullNeg, [exCommentNeg], []⟩]) := by
  refine ⟨rfl, ?_, (C6_amended_sorted_by_running_max {} (fun _ _ => false)
    [⟨exPullNeg, [exCommentNeg], []⟩]).1⟩
  exact (C6_amended_sorted_by_running_max {} (fun _ _ => false) []).2
    exPullNeg [exCommentNeg] [] _ rfl

/-- **C7**: encoding a list of Responses to its compact JSON string form
(as the scanner does when embedding the accumulated lists in a Version)
and then decoding that string (as the resolver does) is the identity
function — the decoded list has the same length, order and field values
(`review_id`, `comment_id`, `created_at`) as the original. -/
theorem C7_encode_then_decode_id (rs : List Response) :
    unmarshalResponses (marshalResponses rs) = some rs :=
  unmarshal_marshal rs

end PRResource
